import Mathlib

/-!
Verification of the portfolio accounting and valuation engine of the
trading-market-simulator repository (`src/app.py`).

The embedding models the SQLite-backed ledger of `app.py` as a pure `Store`
value: the `balance` table is the `cash` field, the `portfolio` table
(primary key `ticker`) is an association list from ticker to `Position`,
and the `history` table is a list of `(timestamp, equity)` rows.  Python
floats are modelled as exact rationals (`ℚ`); timestamps are the strings the
code produces with `strftime "%Y-%m-%d %H:%M"`.  Each database-mutating
function of `app.py` (`update_cash`, `add_trade`, `log_history`) becomes a
pure function from `Store` (or the history list) to `Store`, and the buy /
sell button handlers, which perform the funds / shares validation, become
`Except`-valued functions `buyOrder` / `sellOrder`.
-/

namespace Trading

/-- A row of the `portfolio` table: `shares REAL, avg_cost REAL`
(the `ticker TEXT PRIMARY KEY` is the association-list key). -/
structure Position where
  shares : ℚ
  avg_cost : ℚ
deriving DecidableEq, Repr

/-- Trade side, the `side` string argument of `add_trade` in `app.py`. -/
inductive Side where
  | BUY
  | SELL
deriving DecidableEq, Repr

/-- The whole persistent state of `app.py`: the `balance` row, the
`portfolio` table and the `history` table of `robinhood_v1.db`. -/
structure Store where
  cash : ℚ
  portfolio : List (String × Position)
  history : List (String × ℚ)
deriving DecidableEq, Repr

/-- `init_db` plus the first-run insert: starting cash 10000.00, empty
`portfolio` and `history` tables. -/
def init_db : Store :=
  { cash := 10000, portfolio := [], history := [] }

/-- `SELECT shares, avg_cost FROM portfolio WHERE ticker=?`: the first row
whose key matches the ticker. -/
def getPos : List (String × Position) → String → Option Position
  | [], _ => none
  | e :: rest, t => if e.1 = t then some e.2 else getPos rest t

/-- `UPDATE portfolio SET shares=?, avg_cost=? WHERE ticker=?`: overwrite
both fields of every row whose key matches. -/
def updatePos : List (String × Position) → String → Position → List (String × Position)
  | [], _, _ => []
  | e :: rest, t, pos => (if e.1 = t then (t, pos) else e) :: updatePos rest t pos

/-- `UPDATE portfolio SET shares=? WHERE ticker=?` (the SELL branch):
overwrite only the `shares` field, keeping `avg_cost`. -/
def updateShares : List (String × Position) → String → ℚ → List (String × Position)
  | [], _, _ => []
  | e :: rest, t, sh =>
      (if e.1 = t then (e.1, Position.mk sh e.2.avg_cost) else e) :: updateShares rest t sh

/-- `DELETE FROM portfolio WHERE ticker=?`. -/
def deletePos : List (String × Position) → String → List (String × Position)
  | [], _ => []
  | e :: rest, t => if e.1 = t then deletePos rest t else e :: deletePos rest t

/-- `update_cash(amount)` of `app.py`: overwrite the singleton cash row. -/
def update_cash (s : Store) (amount : ℚ) : Store :=
  { s with cash := amount }

/-- `add_trade(ticker, shares, price, side)` of `app.py`.  BUY with an
existing row re-averages the cost basis; BUY with no row inserts
`(shares, price)`.  SELL with an existing row decrements shares, deleting
the row when the result is `≤ 0`; SELL with no row is a no-op.  Cash is
never touched here. -/
def add_trade (s : Store) (ticker : String) (shares price : ℚ) (side : Side) : Store :=
  match side with
  | Side.BUY =>
    match getPos s.portfolio ticker with
    | some pos =>
      let total_cost := pos.shares * pos.avg_cost + shares * price
      let new_shares := pos.shares + shares
      let new_avg := total_cost / new_shares
      { s with portfolio := updatePos s.portfolio ticker (Position.mk new_shares new_avg) }
    | none =>
      { s with portfolio := s.portfolio ++ [(ticker, Position.mk shares price)] }
  | Side.SELL =>
    match getPos s.portfolio ticker with
    | some pos =>
      let new_shares := pos.shares - shares
      if new_shares ≤ 0 then
        { s with portfolio := deletePos s.portfolio ticker }
      else
        { s with portfolio := updateShares s.portfolio ticker new_shares }
    | none => s

/-- The trade rejections surfaced by the button handlers: "Not enough Buying
Power", "You don't own this." and "You only have … shares.". -/
inductive TradeError where
  | insufficientFunds
  | noPosition
  | insufficientShares
deriving DecidableEq, Repr

/-- The Buy button handler of `app.py` (lines 247-254): `cost =
current_price * shares`; if `cash >= cost` it runs `update_cash(cash -
cost)` then `add_trade(..., "BUY")`, otherwise it rejects with the
insufficient-funds error and changes nothing. -/
def buyOrder (s : Store) (ticker : String) (shares price : ℚ) : Except TradeError Store :=
  let cost := price * shares
  if s.cash ≥ cost then
    Except.ok (add_trade (update_cash s (s.cash - cost)) ticker shares price Side.BUY)
  else
    Except.error TradeError.insufficientFunds

/-- The Sell button handler of `app.py` (lines 256-267): rejects when the
ticker has no portfolio row, rejects when `owned < shares`, and otherwise
runs `update_cash(cash + cost)` then `add_trade(..., "SELL")`. -/
def sellOrder (s : Store) (ticker : String) (shares price : ℚ) : Except TradeError Store :=
  match getPos s.portfolio ticker with
  | some pos =>
    if pos.shares ≥ shares then
      let cost := price * shares
      Except.ok (add_trade (update_cash s (s.cash + cost)) ticker shares price Side.SELL)
    else
      Except.error TradeError.insufficientShares
  | none => Except.error TradeError.noPosition

/-- The header computation of `app.py` (lines 204-213): `portfolio_val`
stays `0.0` when the portfolio is empty, else it is the sum of the `Value`
column `shares * Current Price`; `total_equity = cash + portfolio_val`. -/
def total_equity (s : Store) (prices : String → ℚ) : ℚ :=
  let portfolio_val : ℚ :=
    if s.portfolio.isEmpty then 0
    else (s.portfolio.map (fun e => e.2.shares * prices e.1)).sum
  s.cash + portfolio_val

/-- Modelled from the spec: `valuationReport`'s account formula
`total_equity = cash + sum(shares_i * current_price_i)`; the code under
`src/` only computes this inside the header layout, so the spec formula is
stated separately for the refinement comparison. -/
def spec_total_equity (s : Store) (prices : String → ℚ) : ℚ :=
  s.cash + (s.portfolio.map (fun e => e.2.shares * prices e.1)).sum

/-- Mark-to-market value of one position row, the `Value` column
`shares * Current Price` of the header computation. -/
def marketValue (pos : Position) (price : ℚ) : ℚ :=
  pos.shares * price

/-- Modelled from the spec: the per-row valuation formula `unrealized_pl =
market_value - shares * average_cost`; no function under `src/` computes a
per-row unrealized P/L, only the spec's `valuationReport` defines it. -/
def unrealized_pl (pos : Position) (price : ℚ) : ℚ :=
  marketValue pos price - pos.shares * pos.avg_cost

/-- The coarse time bucket used by `log_history`: `now[:13]` of a
`"%Y-%m-%d %H:%M"` timestamp, i.e. truncation to the hour. -/
def bucket (t : String) : String :=
  t.take 13

/-- `SELECT timestamp FROM history ORDER BY timestamp DESC LIMIT 1`:
the lexicographically greatest timestamp in the history table. -/
def lastLog : List (String × ℚ) → Option String
  | [] => none
  | e :: rest =>
    match lastLog rest with
    | none => some e.1
    | some t => some (if t > e.1 then t else e.1)

/-- `log_history(equity)` of `app.py`, with the ambient clock injected as
`now`: insert `(now, equity)` unless the latest logged timestamp shares its
hour bucket (`now[:13] == last_time[:13]`) with `now`. -/
def log_history (hist : List (String × ℚ)) (now : String) (equity : ℚ) :
    List (String × ℚ) :=
  match lastLog hist with
  | some last_time =>
      if bucket now = bucket last_time then hist else hist ++ [(now, equity)]
  | none => hist ++ [(now, equity)]

/-- Repeated `log_history` calls, each with its own clock reading and
equity value. -/
def logCalls (hist : List (String × ℚ)) (calls : List (String × ℚ)) :
    List (String × ℚ) :=
  calls.foldl (fun h c => log_history h c.1 c.2) hist

/-- Number of history rows whose timestamp falls in bucket `b`. -/
def countBucket (hist : List (String × ℚ)) (b : String) : Nat :=
  (hist.filter (fun e => decide (bucket e.1 = b))).length

/-- A user interaction at the trade tab: one button press. -/
inductive Op where
  | buy (ticker : String) (q p : ℚ)
  | sell (ticker : String) (q p : ℚ)

/-- Run one button press against the store: a rejected order leaves the
store unchanged (the handler only shows an error message). -/
def applyOp (s : Store) : Op → Store
  | Op.buy t q p =>
    match buyOrder s t q p with
    | Except.ok s' => s'
    | Except.error _ => s
  | Op.sell t q p =>
    match sellOrder s t q p with
    | Except.ok s' => s'
    | Except.error _ => s

/-- Run a sequence of button presses. -/
def applyOps (s : Store) (ops : List Op) : Store :=
  ops.foldl applyOp s

/-- An operation with positive quantity and positive price. -/
def posQty : Op → Prop
  | Op.buy _ q p => 0 < q ∧ 0 < p
  | Op.sell _ q p => 0 < q ∧ 0 < p

instance : DecidablePred posQty := fun op =>
  match op with
  | Op.buy _ q p => inferInstanceAs (Decidable (0 < q ∧ 0 < p))
  | Op.sell _ q p => inferInstanceAs (Decidable (0 < q ∧ 0 < p))

/-- Every portfolio row holds a strictly positive share count. -/
def allSharesPos (s : Store) : Prop :=
  ∀ e ∈ s.portfolio, 0 < e.2.shares

instance (s : Store) : Decidable (allSharesPos s) :=
  inferInstanceAs (Decidable (∀ e ∈ s.portfolio, 0 < e.2.shares))

/-- A sequence of engine-level buys on one symbol, applied directly through
`add_trade` (the BUY branch). -/
def applyBuys (s : Store) (ticker : String) (l : List (ℚ × ℚ)) : Store :=
  l.foldl (fun st qp => add_trade st ticker qp.1 qp.2 Side.BUY) s

/-- The durably committed states produced by one Buy button press, in
order: the handler calls `update_cash` (which opens its own SQLite
connection and commits) and then `add_trade` (which opens another
connection and commits separately), so the state after only `update_cash`
is a committed on-disk state. -/
def buyCommitStates (s : Store) (ticker : String) (shares price : ℚ) : List Store :=
  let cost := price * shares
  if s.cash ≥ cost then
    [update_cash s (s.cash - cost),
     add_trade (update_cash s (s.cash - cost)) ticker shares price Side.BUY]
  else []

end Trading

namespace Trading

/-! ### Lemmas about the portfolio table operations -/

theorem getPos_updatePos_of_some {pf : List (String × Position)} {t : String}
    {q : Position} (h : getPos pf t = some q) (pos : Position) :
    getPos (updatePos pf t pos) t = some pos := by
  induction pf with
  | nil => simp [getPos] at h
  | cons e rest ih =>
    by_cases he : e.1 = t
    · simp [getPos, updatePos, he]
    · have h' : getPos rest t = some q := by simpa [getPos, he] using h
      simpa [updatePos, getPos, he] using ih h'

theorem getPos_updateShares_of_some {pf : List (String × Position)} {t : String}
    {q : Position} (h : getPos pf t = some q) (sh : ℚ) :
    getPos (updateShares pf t sh) t = some (Position.mk sh q.avg_cost) := by
  induction pf with
  | nil => simp [getPos] at h
  | cons e rest ih =>
    by_cases he : e.1 = t
    · have hq : e.2 = q := by simpa [getPos, he] using h
      simp [updateShares, getPos, he, hq]
    · have h' : getPos rest t = some q := by simpa [getPos, he] using h
      simpa [updateShares, getPos, he] using ih h'

theorem getPos_deletePos (pf : List (String × Position)) (t : String) :
    getPos (deletePos pf t) t = none := by
  induction pf with
  | nil => rfl
  | cons e rest ih =>
    by_cases he : e.1 = t
    · simp [deletePos, he, ih]
    · simp [deletePos, getPos, he, ih]

theorem getPos_append_of_none {pf : List (String × Position)} {t : String}
    (h : getPos pf t = none) (pos : Position) :
    getPos (pf ++ [(t, pos)]) t = some pos := by
  induction pf with
  | nil => simp [getPos]
  | cons e rest ih =>
    by_cases he : e.1 = t
    · simp [getPos, he] at h
    · have h' : getPos rest t = none := by simpa [getPos, he] using h
      simpa [getPos, he] using ih h'

theorem getPos_mem {pf : List (String × Position)} {t : String} {pos : Position}
    (h : getPos pf t = some pos) : (t, pos) ∈ pf := by
  induction pf with
  | nil => simp [getPos] at h
  | cons e rest ih =>
    by_cases he : e.1 = t
    · have hq : e.2 = pos := by simpa [getPos, he] using h
      have : e = (t, pos) := by
        cases e
        simp_all
      simp [this]
    · have h' : getPos rest t = some pos := by simpa [getPos, he] using h
      exact List.mem_cons_of_mem _ (ih h')

theorem mem_updatePos {pf : List (String × Position)} {t : String}
    {pos x : _} (h : x ∈ updatePos pf t pos) : x = (t, pos) ∨ x ∈ pf := by
  induction pf with
  | nil => simp [updatePos] at h
  | cons e rest ih =>
    simp only [updatePos, List.mem_cons] at h
    rcases h with h | h
    · by_cases he : e.1 = t
      · simp only [he, if_pos rfl] at h
        exact Or.inl h
      · simp only [if_neg he] at h
        exact Or.inr (by simp [h])
    · rcases ih h with h' | h'
      · exact Or.inl h'
      · exact Or.inr (by simp [h'])

theorem mem_updateShares {pf : List (String × Position)} {t : String}
    {sh : ℚ} {x : String × Position} (h : x ∈ updateShares pf t sh) :
    x.2.shares = sh ∨ x ∈ pf := by
  induction pf with
  | nil => simp [updateShares] at h
  | cons e rest ih =>
    simp only [updateShares, List.mem_cons] at h
    rcases h with h | h
    · by_cases he : e.1 = t
      · simp only [he, if_pos rfl] at h
        subst h
        exact Or.inl rfl
      · simp only [if_neg he] at h
        exact Or.inr (by simp [h])
    · rcases ih h with h' | h'
      · exact Or.inl h'
      · exact Or.inr (by simp [h'])

theorem mem_deletePos {pf : List (String × Position)} {t : String}
    {x : String × Position} (h : x ∈ deletePos pf t) : x ∈ pf := by
  induction pf with
  | nil => simp [deletePos] at h
  | cons e rest ih =>
    by_cases he : e.1 = t
    · simp only [deletePos, if_pos he] at h
      exact List.mem_cons_of_mem _ (ih h)
    · simp only [deletePos, if_neg he, List.mem_cons] at h
      rcases h with h | h
      · simp [h]
      · exact List.mem_cons_of_mem _ (ih h)

theorem add_trade_cash (s : Store) (t : String) (q p : ℚ) (side : Side) :
    (add_trade s t q p side).cash = s.cash := by
  cases side <;> simp only [add_trade] <;> split <;> (try split) <;> rfl

theorem add_trade_history (s : Store) (t : String) (q p : ℚ) (side : Side) :
    (add_trade s t q p side).history = s.history := by
  cases side <;> simp only [add_trade] <;> split <;> (try split) <;> rfl

/-! ### C1 -/

/-- C1: from the fresh store (cash 10000, no positions), buying 10 shares
at 50, then 10 at 70, then selling 15 at 80 on the same symbol leaves cash
10000, the position at 5 shares with average cost 60, and, at a current
price of 80, market value 400, unrealized P/L 100 and total equity
10400. -/
theorem c1_end_to_end_scenario :
    (applyOps init_db [Op.buy "TEST" 10 50, Op.buy "TEST" 10 70, Op.sell "TEST" 15 80]).cash
        = 10000 ∧
    getPos (applyOps init_db
        [Op.buy "TEST" 10 50, Op.buy "TEST" 10 70, Op.sell "TEST" 15 80]).portfolio "TEST"
        = some (Position.mk 5 60) ∧
    marketValue (Position.mk 5 60) 80 = 400 ∧
    unrealized_pl (Position.mk 5 60) 80 = 100 ∧
    total_equity (applyOps init_db
        [Op.buy "TEST" 10 50, Op.buy "TEST" 10 70, Op.sell "TEST" 15 80]) (fun _ => 80)
        = 10400 := by
  norm_num [applyOps, applyOp, buyOrder, sellOrder, add_trade, update_cash, getPos,
    updatePos, updateShares, deletePos, init_db, total_equity, marketValue, unrealized_pl]

end Trading

namespace Trading

theorem applyBuys_cons (s : Store) (ticker : String) (x : ℚ × ℚ) (rest : List (ℚ × ℚ)) :
    applyBuys s ticker (x :: rest)
      = applyBuys (add_trade s ticker x.1 x.2 Side.BUY) ticker rest := rfl

theorem applyBuys_getPos_some (ticker : String) (l : List (ℚ × ℚ)) :
    ∀ (s : Store) (S C : ℚ), 0 < S → (∀ x ∈ l, 0 < x.1) →
      getPos s.portfolio ticker = some (Position.mk S C) →
      getPos (applyBuys s ticker l).portfolio ticker
        = some (Position.mk (S + (l.map Prod.fst).sum)
            ((S * C + (l.map fun x => x.1 * x.2).sum) / (S + (l.map Prod.fst).sum))) := by
  induction l with
  | nil =>
    intro s S C hS hpos h
    rw [applyBuys]
    simp only [List.foldl_nil, List.map_nil, List.sum_nil, add_zero]
    rw [h]
    simp only [Option.some_inj, Position.mk.injEq]
    exact ⟨trivial, (mul_div_cancel_left₀ C (ne_of_gt hS)).symm⟩
  | cons x rest ih =>
    intro s S C hS hpos h
    have hx : 0 < x.1 := hpos x (List.mem_cons_self x rest)
    have hS' : 0 < S + x.1 := add_pos hS hx
    have hstep : getPos (add_trade s ticker x.1 x.2 Side.BUY).portfolio ticker
        = some (Position.mk (S + x.1) ((S * C + x.1 * x.2) / (S + x.1))) := by
      simp only [add_trade, h]
      exact getPos_updatePos_of_some h _
    have hrec := ih (add_trade s ticker x.1 x.2 Side.BUY) (S + x.1)
        ((S * C + x.1 * x.2) / (S + x.1)) hS'
        (fun y hy => hpos y (List.mem_cons_of_mem _ hy)) hstep
    rw [applyBuys_cons, hrec]
    simp only [List.map_cons, List.sum_cons, Option.some_inj, Position.mk.injEq]
    have hne : S + x.1 ≠ 0 := ne_of_gt hS'
    constructor
    · ring
    · rw [mul_div_cancel₀ _ hne]
      ring

theorem applyBuys_from_none (ticker : String) (s : Store) (l : List (ℚ × ℚ))
    (hstart : getPos s.portfolio ticker = none) (hne : l ≠ [])
    (hpos : ∀ x ∈ l, 0 < x.1) :
    getPos (applyBuys s ticker l).portfolio ticker
      = some (Position.mk ((l.map Prod.fst).sum)
          ((l.map fun x => x.1 * x.2).sum / (l.map Prod.fst).sum)) := by
  cases l with
  | nil => exact absurd rfl hne
  | cons x rest =>
    have hx : 0 < x.1 := hpos x (List.mem_cons_self x rest)
    have hfirst : getPos (add_trade s ticker x.1 x.2 Side.BUY).portfolio ticker
        = some (Position.mk x.1 x.2) := by
      simp only [add_trade, hstart]
      exact getPos_append_of_none hstart _
    have hrec := applyBuys_getPos_some ticker rest
        (add_trade s ticker x.1 x.2 Side.BUY) x.1 x.2 hx
        (fun y hy => hpos y (List.mem_cons_of_mem _ hy)) hfirst
    rw [applyBuys_cons, hrec]
    simp only [List.map_cons, List.sum_cons]

end Trading

namespace Trading

/-- C2: for every nonempty sequence of buys on one symbol (each with
positive quantity and positive price), applied through the BUY branch of
`add_trade` starting from a store with no position for the symbol, the
stored `avg_cost` is the quantity-weighted mean of the buy prices, and any
permutation of the sequence produces the same stored position. -/
theorem c2_weighted_average_cost (ticker : String) (s : Store) (l l' : List (ℚ × ℚ))
    (hstart : getPos s.portfolio ticker = none)
    (hne : l ≠ [])
    (hpos : ∀ x ∈ l, 0 < x.1 ∧ 0 < x.2)
    (hperm : l.Perm l') :
    getPos (applyBuys s ticker l).portfolio ticker
      = some (Position.mk ((l.map Prod.fst).sum)
          ((l.map fun x => x.1 * x.2).sum / (l.map Prod.fst).sum))
    ∧ getPos (applyBuys s ticker l').portfolio ticker
        = getPos (applyBuys s ticker l).portfolio ticker := by
  have h1 := applyBuys_from_none ticker s l hstart hne (fun x hx => (hpos x hx).1)
  have hne' : l' ≠ [] := by
    intro hnil
    exact hne (List.Perm.eq_nil (hnil ▸ hperm))
  have h2 := applyBuys_from_none ticker s l' hstart hne'
      (fun x hx => (hpos x (hperm.mem_iff.mpr hx)).1)
  have hq : (l'.map Prod.fst).sum = (l.map Prod.fst).sum :=
    ((hperm.map Prod.fst).sum_eq).symm
  have hqp : (l'.map fun x => x.1 * x.2).sum = (l.map fun x => x.1 * x.2).sum :=
    ((hperm.map fun x => x.1 * x.2).sum_eq).symm
  refine ⟨h1, ?_⟩
  rw [h1, h2, hq, hqp]

/-- Witness for C2: buying 10 at 100 and then 10 at 200 on a fresh store
yields 20 shares at average cost 150, and the reversed order yields the
same stored position. -/
theorem c2_weighted_average_cost_witness :
    getPos (applyBuys init_db "A" [((10 : ℚ), (100 : ℚ)), (10, 200)]).portfolio "A"
        = some (Position.mk 20 150)
    ∧ getPos (applyBuys init_db "A" [((10 : ℚ), (200 : ℚ)), (10, 100)]).portfolio "A"
        = getPos (applyBuys init_db "A" [((10 : ℚ), (100 : ℚ)), (10, 200)]).portfolio "A" := by
  have h := c2_weighted_average_cost "A" init_db [(10, 100), (10, 200)] [(10, 200), (10, 100)]
      (by simp [getPos, init_db]) (List.cons_ne_nil _ _)
      (by
        rintro x hx
        simp only [List.mem_cons, List.not_mem_nil, or_false] at hx
        rcases hx with rfl | rfl <;> norm_num)
      (List.Perm.swap (10, 200) (10, 100) [])
  refine ⟨h.1.trans ?_, h.2⟩
  norm_num

end Trading

namespace Trading

theorem add_trade_buy_insert (s : Store) (ticker : String) (q p : ℚ)
    (h : getPos s.portfolio ticker = none) :
    add_trade s ticker q p Side.BUY
      = { s with portfolio := s.portfolio ++ [(ticker, Position.mk q p)] } := by
  simp only [add_trade, h]

theorem add_trade_buy_update (s : Store) (ticker : String) (q p : ℚ) (pos : Position)
    (h : getPos s.portfolio ticker = some pos) :
    add_trade s ticker q p Side.BUY
      = { s with portfolio := (updatePos s.portfolio ticker
            (Position.mk (pos.shares + q)
              ((pos.shares * pos.avg_cost + q * p) / (pos.shares + q)))) } := by
  simp only [add_trade, h]

theorem add_trade_sell_delete (s : Store) (ticker : String) (q p : ℚ) (pos : Position)
    (h : getPos s.portfolio ticker = some pos) (hle : pos.shares - q ≤ 0) :
    add_trade s ticker q p Side.SELL
      = { s with portfolio := deletePos s.portfolio ticker } := by
  simp only [add_trade, h, if_pos hle]

theorem add_trade_sell_update (s : Store) (ticker : String) (q p : ℚ) (pos : Position)
    (h : getPos s.portfolio ticker = some pos) (hgt : ¬ pos.shares - q ≤ 0) :
    add_trade s ticker q p Side.SELL
      = { s with portfolio := updateShares s.portfolio ticker (pos.shares - q) } := by
  simp only [add_trade, h, if_neg hgt]

/-- C3: a buy whose cost exceeds the cash balance is rejected by the Buy
handler with the insufficient-funds error, leaving the store untouched (the
handler returns no new store), and every committed buy debits exactly the
cost and leaves nonnegative cash. -/
theorem c3_insufficient_funds (s s' : Store) (ticker : String) (q p : ℚ) :
    (s.cash < p * q →
      buyOrder s ticker q p = Except.error TradeError.insufficientFunds)
    ∧ (buyOrder s ticker q p = Except.ok s' →
        s'.cash = s.cash - p * q ∧ 0 ≤ s'.cash) := by
  constructor
  · intro hlt
    simp only [buyOrder]
    rw [if_neg (not_le.mpr hlt)]
  · intro hok
    simp only [buyOrder] at hok
    by_cases hc : s.cash ≥ p * q
    · rw [if_pos hc] at hok
      simp only [Except.ok.injEq] at hok
      subst hok
      rw [add_trade_cash]
      exact ⟨rfl, sub_nonneg.mpr hc⟩
    · rw [if_neg hc] at hok
      simp at hok

/-- Witness for C3: with cash 100 a buy of 10 shares at 50 is rejected with
the insufficient-funds error, and the committed buy of 10 at 50 from the
fresh store leaves nonnegative cash. -/
theorem c3_insufficient_funds_witness :
    buyOrder (Store.mk 100 [] []) "T" 10 50 = Except.error TradeError.insufficientFunds
    ∧ 0 ≤ (add_trade (update_cash init_db (init_db.cash - 50 * 10)) "T" 10 50 Side.BUY).cash := by
  refine ⟨(c3_insufficient_funds (Store.mk 100 [] []) (Store.mk 100 [] []) "T" 10 50).1
    (by norm_num), ?_⟩
  have hok : buyOrder init_db "T" 10 50
      = Except.ok (add_trade (update_cash init_db (init_db.cash - 50 * 10)) "T" 10 50 Side.BUY) := by
    simp only [buyOrder]
    rw [if_pos (by norm_num [init_db])]
  exact ((c3_insufficient_funds init_db _ "T" 10 50).2 hok).2

/-- C4: the Sell handler rejects with the no-position error when the ticker
has no portfolio row and with the insufficient-shares error when the
requested quantity exceeds the held shares, leaving the store untouched in
both cases, and a committed sell never leaves a row with negative shares
for the ticker: the row is either gone or holds strictly positive
shares. -/
theorem c4_sell_rejections (s s' : Store) (ticker : String) (q p : ℚ) :
    (getPos s.portfolio ticker = none →
      sellOrder s ticker q p = Except.error TradeError.noPosition)
    ∧ (∀ pos, getPos s.portfolio ticker = some pos → pos.shares < q →
        sellOrder s ticker q p = Except.error TradeError.insufficientShares)
    ∧ (sellOrder s ticker q p = Except.ok s' →
        getPos s'.portfolio ticker = none
        ∨ ∃ ps, getPos s'.portfolio ticker = some ps ∧ 0 < ps.shares) := by
  refine ⟨?_, ?_, ?_⟩
  · intro h
    simp only [sellOrder, h]
  · intro pos h hlt
    simp only [sellOrder, h]
    rw [if_neg (not_le.mpr hlt)]
  · intro hok
    simp only [sellOrder] at hok
    cases hpos : getPos s.portfolio ticker with
    | none =>
      rw [hpos] at hok
      simp at hok
    | some pos =>
      simp only [hpos] at hok
      by_cases hge : pos.shares ≥ q
      · rw [if_pos hge] at hok
        simp only [Except.ok.injEq] at hok
        subst hok
        by_cases hns : pos.shares - q ≤ 0
        · left
          rw [add_trade_sell_delete (update_cash s (s.cash + p * q)) ticker q p pos hpos hns]
          exact getPos_deletePos _ _
        · right
          refine ⟨Position.mk (pos.shares - q) pos.avg_cost, ?_, not_le.mp hns⟩
          rw [add_trade_sell_update (update_cash s (s.cash + p * q)) ticker q p pos hpos hns]
          exact getPos_updateShares_of_some hpos _
      · rw [if_neg hge] at hok
        simp at hok

/-- Witness for C4: selling an unowned ticker on the fresh store is
rejected with the no-position error; selling 6 with 5 held is rejected with
the insufficient-shares error; the committed sell of all 5 held shares
leaves the ticker with no row or a positive row. -/
theorem c4_sell_rejections_witness :
    sellOrder init_db "T" 5 10 = Except.error TradeError.noPosition
    ∧ sellOrder (Store.mk 10000 [("T", Position.mk 5 10)] []) "T" 6 10
        = Except.error TradeError.insufficientShares
    ∧ (getPos (add_trade (update_cash (Store.mk 10000 [("T", Position.mk 5 10)] [])
            ((Store.mk 10000 [("T", Position.mk 5 10)] []).cash + 20 * 5))
          "T" 5 20 Side.SELL).portfolio "T" = none
        ∨ ∃ ps, getPos (add_trade (update_cash (Store.mk 10000 [("T", Position.mk 5 10)] [])
              ((Store.mk 10000 [("T", Position.mk 5 10)] []).cash + 20 * 5))
            "T" 5 20 Side.SELL).portfolio "T" = some ps ∧ 0 < ps.shares) := by
  refine ⟨(c4_sell_rejections init_db init_db "T" 5 10).1 (by simp [getPos, init_db]),
    (c4_sell_rejections (Store.mk 10000 [("T", Position.mk 5 10)] [])
        (Store.mk 10000 [("T", Position.mk 5 10)] []) "T" 6 10).2.1
      (Position.mk 5 10) (by simp [getPos]) (by norm_num), ?_⟩
  have hok : sellOrder (Store.mk 10000 [("T", Position.mk 5 10)] []) "T" 5 20
      = Except.ok (add_trade (update_cash (Store.mk 10000 [("T", Position.mk 5 10)] [])
          ((Store.mk 10000 [("T", Position.mk 5 10)] []).cash + 20 * 5)) "T" 5 20 Side.SELL) := by
    have hp : getPos (Store.mk 10000 [("T", Position.mk 5 10)] []).portfolio "T"
        = some (Position.mk 5 10) := by simp [getPos]
    simp only [sellOrder, hp]
    rw [if_pos (by norm_num)]
  exact (c4_sell_rejections (Store.mk 10000 [("T", Position.mk 5 10)] []) _ "T" 5 20).2.2 hok

/-- C6: a committed partial sell (quantity strictly below the held shares)
reduces the held shares by the quantity and leaves the stored average cost
unchanged. -/
theorem c6_partial_sell_keeps_avg_cost (s : Store) (ticker : String) (q p h c : ℚ)
    (hpos : getPos s.portfolio ticker = some (Position.mk h c))
    (_hq : 0 < q) (hlt : q < h) :
    ∃ s', sellOrder s ticker q p = Except.ok s'
      ∧ getPos s'.portfolio ticker = some (Position.mk (h - q) c) := by
  have hge : (Position.mk h c).shares ≥ q := le_of_lt hlt
  have hns : ¬ ((Position.mk h c).shares - q ≤ 0) := by
    simp only [not_le]
    show (0 : ℚ) < h - q
    linarith
  refine ⟨add_trade (update_cash s (s.cash + p * q)) ticker q p Side.SELL, ?_, ?_⟩
  · simp only [sellOrder, hpos]
    rw [if_pos hge]
  · rw [add_trade_sell_update (update_cash s (s.cash + p * q)) ticker q p
      (Position.mk h c) hpos hns]
    exact getPos_updateShares_of_some hpos _

/-- Witness for C6: with 10 shares held at average cost 60, selling 4 at 80
commits and leaves 6 shares at average cost 60. -/
theorem c6_partial_sell_keeps_avg_cost_witness :
    ∃ s', sellOrder (Store.mk 10000 [("T", Position.mk 10 60)] []) "T" 4 80 = Except.ok s'
      ∧ getPos s'.portfolio "T" = some (Position.mk 6 60) := by
  obtain ⟨s', h1, h2⟩ := c6_partial_sell_keeps_avg_cost
    (Store.mk 10000 [("T", Position.mk 10 60)] []) "T" 4 80 10 60
    (by simp [getPos]) (by norm_num) (by norm_num)
  refine ⟨s', h1, ?_⟩
  rw [h2]
  norm_num

/-- C10: calling `add_trade` directly with side SELL and a quantity at
least the held shares deletes the portfolio row outright, commits without
any error (the engine-level function has no insufficient-shares check) and
does not itself adjust cash. -/
theorem c10_oversized_engine_sell (s : Store) (ticker : String) (q p h c : ℚ)
    (hpos : getPos s.portfolio ticker = some (Position.mk h c)) (hge : h ≤ q) :
    (add_trade s ticker q p Side.SELL).cash = s.cash
    ∧ getPos (add_trade s ticker q p Side.SELL).portfolio ticker = none := by
  have hns : (Position.mk h c).shares - q ≤ 0 := by
    show h - q ≤ (0 : ℚ)
    exact sub_nonpos.mpr hge
  refine ⟨add_trade_cash s ticker q p Side.SELL, ?_⟩
  rw [add_trade_sell_delete s ticker q p (Position.mk h c) hpos hns]
  exact getPos_deletePos _ _

/-- Witness for C10: with 5 shares held, an engine-level SELL of 9 deletes
the whole row and leaves cash untouched. -/
theorem c10_oversized_engine_sell_witness :
    (add_trade (Store.mk 10000 [("T", Position.mk 5 10)] []) "T" 9 20 Side.SELL).cash
        = (Store.mk 10000 [("T", Position.mk 5 10)] []).cash
    ∧ getPos (add_trade (Store.mk 10000 [("T", Position.mk 5 10)] [])
        "T" 9 20 Side.SELL).portfolio "T" = none :=
  c10_oversized_engine_sell (Store.mk 10000 [("T", Position.mk 5 10)] []) "T" 9 20 5 10
    (by simp [getPos]) (by norm_num)

end Trading

namespace Trading

theorem allSharesPos_applyOp (s : Store) (op : Op)
    (hs : allSharesPos s) (hop : posQty op) : allSharesPos (applyOp s op) := by
  cases op with
  | buy t q p =>
    simp only [applyOp]
    cases hbo : buyOrder s t q p with
    | error e => exact hs
    | ok s' =>
      simp only [buyOrder] at hbo
      by_cases hc : s.cash ≥ p * q
      · rw [if_pos hc] at hbo
        simp only [Except.ok.injEq] at hbo
        subst hbo
        cases hgp : getPos s.portfolio t with
        | none =>
          rw [add_trade_buy_insert (update_cash s (s.cash - p * q)) t q p hgp]
          intro e he
          rcases List.mem_append.mp he with h1 | h1
          · exact hs e h1
          · simp only [List.mem_singleton] at h1
            subst h1
            exact hop.1
        | some pos =>
          have hps : 0 < pos.shares := hs (t, pos) (getPos_mem hgp)
          rw [add_trade_buy_update (update_cash s (s.cash - p * q)) t q p pos hgp]
          intro e he
          rcases mem_updatePos he with h1 | h1
          · subst h1
            exact add_pos hps hop.1
          · exact hs e h1
      · rw [if_neg hc] at hbo
        simp at hbo
  | sell t q p =>
    simp only [applyOp]
    cases hso : sellOrder s t q p with
    | error e => exact hs
    | ok s' =>
      simp only [sellOrder] at hso
      cases hgp : getPos s.portfolio t with
      | none =>
        rw [hgp] at hso
        simp at hso
      | some pos =>
        simp only [hgp] at hso
        by_cases hge : pos.shares ≥ q
        · rw [if_pos hge] at hso
          simp only [Except.ok.injEq] at hso
          subst hso
          by_cases hns : pos.shares - q ≤ 0
          · rw [add_trade_sell_delete (update_cash s (s.cash + p * q)) t q p pos hgp hns]
            intro e he
            exact hs e (mem_deletePos he)
          · rw [add_trade_sell_update (update_cash s (s.cash + p * q)) t q p pos hgp hns]
            intro e he
            rcases mem_updateShares he with h1 | h1
            · rw [h1]
              exact not_le.mp hns
            · exact hs e h1
        · rw [if_neg hge] at hso
          simp at hso

theorem allSharesPos_applyOps (ops : List Op) :
    ∀ s, allSharesPos s → (∀ op ∈ ops, posQty op) → allSharesPos (applyOps s ops) := by
  induction ops with
  | nil =>
    intro s hs _
    exact hs
  | cons op rest ih =>
    intro s hs hops
    exact ih (applyOp s op)
      (allSharesPos_applyOp s op hs (hops op (List.mem_cons_self _ _)))
      (fun o ho => hops o (List.mem_cons_of_mem _ ho))

/-- C7: after any sequence of buy and sell button presses with positive
quantities and prices starting from the fresh store, every stored position
row has strictly positive shares (a zero-share row never exists), and a
committed sell of all held shares of a symbol removes its row from the
portfolio. -/
theorem c7_no_zero_share_positions :
    (∀ ops : List Op, (∀ op ∈ ops, posQty op) → allSharesPos (applyOps init_db ops))
    ∧ (∀ (s : Store) (ticker : String) (h c p : ℚ),
        getPos s.portfolio ticker = some (Position.mk h c) →
        ∃ s', sellOrder s ticker h p = Except.ok s'
          ∧ getPos s'.portfolio ticker = none) := by
  constructor
  · intro ops hops
    refine allSharesPos_applyOps ops init_db ?_ hops
    intro e he
    simp [init_db] at he
  · intro s ticker h c p hpos
    have hge : (Position.mk h c).shares ≥ h := le_refl h
    have hns : (Position.mk h c).shares - h ≤ 0 := by
      show h - h ≤ (0 : ℚ)
      simp
    refine ⟨add_trade (update_cash s (s.cash + p * h)) ticker h p Side.SELL, ?_, ?_⟩
    · simp only [sellOrder, hpos]
      rw [if_pos hge]
    · rw [add_trade_sell_delete (update_cash s (s.cash + p * h)) ticker h p
        (Position.mk h c) hpos hns]
      exact getPos_deletePos _ _

/-- Witness for C7: buying 10 at 50 then selling 4 at 60 leaves only
positive-share rows, and selling all 6 held shares removes the row. -/
theorem c7_no_zero_share_positions_witness :
    allSharesPos (applyOps init_db [Op.buy "A" 10 50, Op.sell "A" 4 60])
    ∧ ∃ s', sellOrder (Store.mk 10000 [("A", Position.mk 6 50)] []) "A" 6 70 = Except.ok s'
        ∧ getPos s'.portfolio "A" = none := by
  constructor
  · refine c7_no_zero_share_positions.1 [Op.buy "A" 10 50, Op.sell "A" 4 60] ?_
    intro op hop
    simp only [List.mem_cons, List.not_mem_nil, or_false] at hop
    rcases hop with rfl | rfl <;> exact ⟨by norm_num, by norm_num⟩
  · exact c7_no_zero_share_positions.2 (Store.mk 10000 [("A", Position.mk 6 50)] [])
      "A" 6 50 70 (by simp [getPos])

/-- C8: the header's total equity is cash plus the sum over all position
rows of shares times the supplied current price — the `portfolio_val = 0`
empty-portfolio special case of the code agrees with the spec's unconditional
sum formula, computed purely from the stored state with no mutation. -/
theorem c8_total_equity_formula (s : Store) (prices : String → ℚ) :
    total_equity s prices = spec_total_equity s prices := by
  cases hpf : s.portfolio with
  | nil => simp [total_equity, spec_total_equity, hpf]
  | cons e rest => simp [total_equity, spec_total_equity, hpf]

end Trading

namespace Trading

theorem lastLog_mem (hist : List (String × ℚ)) :
    ∀ t, lastLog hist = some t → t ∈ hist.map Prod.fst := by
  induction hist with
  | nil =>
    intro t h
    simp [lastLog] at h
  | cons e rest ih =>
    intro t h
    simp only [lastLog] at h
    cases hl : lastLog rest with
    | none =>
      rw [hl] at h
      simp only [Option.some_inj] at h
      subst h
      simp only [List.map_cons]
      exact List.mem_cons_self _ _
    | some t' =>
      rw [hl] at h
      simp only [Option.some_inj] at h
      subst h
      simp only [List.map_cons]
      by_cases hgt : t' > e.1
      · rw [if_pos hgt]
        exact List.mem_cons_of_mem _ (ih t' hl)
      · rw [if_neg hgt]
        exact List.mem_cons_self _ _

theorem lastLog_append_last (hist : List (String × ℚ)) (m : String) (v : ℚ)
    (hle : ∀ t ∈ hist.map Prod.fst, t ≤ m) :
    lastLog (hist ++ [(m, v)]) = some m := by
  induction hist with
  | nil => simp [lastLog]
  | cons e rest ih =>
    have hrec := ih (fun t ht => hle t (by simp [ht]))
    simp only [List.cons_append, lastLog, List.append_eq, hrec]
    have he : e.1 ≤ m := hle e.1 (by simp)
    rcases eq_or_lt_of_le he with heq | hlt
    · rw [heq, if_neg (lt_irrefl m)]
    · rw [if_pos hlt]

theorem log_history_append (hist : List (String × ℚ)) (now : String) (v : ℚ)
    (h : ∀ t ∈ hist.map Prod.fst, bucket t ≠ bucket now) :
    log_history hist now v = hist ++ [(now, v)] := by
  cases hl : lastLog hist with
  | none => simp [log_history, hl]
  | some tm =>
    simp only [log_history, hl]
    exact if_neg (fun hb => h tm (lastLog_mem hist tm hl) (Eq.symm hb))

theorem log_history_skip (hist : List (String × ℚ)) (now tm : String) (v : ℚ)
    (hl : lastLog hist = some tm) (hb : bucket now = bucket tm) :
    log_history hist now v = hist := by
  simp only [log_history, hl, if_pos hb]

theorem logCalls_fixed (base : List (String × ℚ)) (n1 : String)
    (hlast : lastLog base = some n1) :
    ∀ calls, (∀ c ∈ calls, bucket c.1 = bucket n1) → logCalls base calls = base := by
  intro calls
  induction calls with
  | nil =>
    intro _
    rfl
  | cons c rest ih =>
    intro hsame
    have hc : log_history base c.1 c.2 = base :=
      log_history_skip base c.1 n1 c.2 hlast (hsame c (List.mem_cons_self _ _))
    show logCalls (log_history base c.1 c.2) rest = base
    rw [hc]
    exact ih (fun x hx => hsame x (List.mem_cons_of_mem _ hx))

theorem countBucket_append_fresh (hist : List (String × ℚ)) (n1 : String) (v : ℚ)
    (hfresh : ∀ t ∈ hist.map Prod.fst, bucket t ≠ bucket n1) :
    countBucket (hist ++ [(n1, v)]) (bucket n1) = 1 := by
  simp only [countBucket, List.filter_append]
  have h0 : hist.filter (fun e => decide (bucket e.1 = bucket n1)) = [] := by
    rw [List.filter_eq_nil_iff]
    intro a ha
    simp only [decide_eq_true_eq]
    exact hfresh a.1 (List.mem_map_of_mem Prod.fst ha)
  rw [h0]
  simp

/-- C9: starting from a history whose rows all have timestamps at or before
the first call's and in strictly different hour buckets, the first snapshot
call inserts exactly one row and every later call whose timestamp falls in
the same hour bucket is a no-op, so the bucket holds exactly one row no
matter how many calls are made. -/
theorem c9_snapshot_bucket_dedup (hist : List (String × ℚ)) (n1 : String) (e1 : ℚ)
    (calls : List (String × ℚ))
    (hmax : ∀ t ∈ hist.map Prod.fst, t ≤ n1)
    (hfresh : ∀ t ∈ hist.map Prod.fst, bucket t ≠ bucket n1)
    (hsame : ∀ c ∈ calls, bucket c.1 = bucket n1) :
    logCalls (log_history hist n1 e1) calls = hist ++ [(n1, e1)]
    ∧ countBucket (logCalls (log_history hist n1 e1) calls) (bucket n1) = 1 := by
  have h1 : log_history hist n1 e1 = hist ++ [(n1, e1)] :=
    log_history_append hist n1 e1 hfresh
  have hlast : lastLog (hist ++ [(n1, e1)]) = some n1 :=
    lastLog_append_last hist n1 e1 hmax
  have hfix : logCalls (hist ++ [(n1, e1)]) calls = hist ++ [(n1, e1)] :=
    logCalls_fixed (hist ++ [(n1, e1)]) n1 hlast calls hsame
  rw [h1, hfix]
  exact ⟨rfl, countBucket_append_fresh hist n1 e1 hfresh⟩

/-- Witness for C9: snapshotting at 10:00 and again at 10:30 of the same
hour leaves exactly the single 10:00 row for that bucket. -/
theorem c9_snapshot_bucket_dedup_witness :
    logCalls (log_history [] "2026-01-05 10:00" 10400) [("2026-01-05 10:30", 10400)]
        = [("2026-01-05 10:00", (10400 : ℚ))]
    ∧ countBucket (logCalls (log_history [] "2026-01-05 10:00" 10400)
        [("2026-01-05 10:30", 10400)]) (bucket "2026-01-05 10:00") = 1 := by
  have h := c9_snapshot_bucket_dedup [] "2026-01-05 10:00" 10400
      [("2026-01-05 10:30", 10400)]
      (by simp) (by simp)
      (by
        intro c hc
        simp only [List.mem_singleton] at hc
        subst hc
        rfl)
  exact ⟨h.1, h.2⟩

/-- C5: refutation of buy atomicity on the code: in the committed-state
trace of a Buy button press from the fresh store, the state committed by
`update_cash` — durably on disk before `add_trade` opens its own connection
and commits — already has the cash debited while the position is not yet
recorded. -/
theorem c5_intermediate_commit_state :
    ∃ mid ∈ buyCommitStates init_db "TEST" 10 50,
      mid.cash = init_db.cash - 50 * 10 ∧ getPos mid.portfolio "TEST" = none := by
  refine ⟨update_cash init_db (init_db.cash - 50 * 10), ?_, rfl, rfl⟩
  simp only [buyCommitStates]
  rw [if_pos (by norm_num [init_db])]
  exact List.mem_cons_self _ _

end Trading
